import Mathlib

/-!
Verification of the flan audio-combination core (`AudioCombination.cpp`).

The development shallowly embeds the repository's audio-combination
operations.  Samples and gains are drawn from an arbitrary linear ordered
field `α` (instantiated at `ℚ` for decidable concrete evaluation, and at
`ℝ` where the source applies `std::sqrt`); times are rationals (seconds)
and frame indices are integers, exactly mirroring the source's `Second`
and `Frame` arithmetic without floating-point rounding.

Buffer-class accessors (`time_to_frame`, `frame_to_time`, `get_length`,
`create_null`, `is_null`, `sample_function_over_domain`), the `Function`
sampling primitive, the resampler, and the FFT primitive are not part of
`AudioCombination.cpp`; they are modelled from the specification, each
with a doc comment saying so.  The resampler is passed as an explicit
function parameter wherever the source calls `Audio::resample`, so every
theorem holds for an arbitrary black-box resampler.
-/

namespace Flan

/-- An audio buffer: format descriptor {channel count, frame count, sample
rate} together with its samples, accessed by (channel, frame) exactly as
the source's `get_sample( channel, frame )`.  Sample values live in an
arbitrary linear ordered field `α` standing in for `float`. -/
structure Audio (α : Type*) where
  num_channels : ℕ
  num_frames : ℕ
  sample_rate : ℕ
  sample : ℕ → ℕ → α

variable {α : Type*} [LinearOrderedField α]

/-- Modelled from the spec: the null buffer sentinel, 0 channels and
0 frames, returned instead of raising on degenerate input. -/
def create_null : Audio α :=
  { num_channels := 0, num_frames := 0, sample_rate := 0, sample := fun _ _ => 0 }

/-- Modelled from the spec: a buffer is null when its storage is empty,
i.e. it has 0 channels or 0 frames. -/
def is_null (a : Audio α) : Bool :=
  a.num_channels = 0 || a.num_frames = 0

/-- List indexing with the null buffer as the (never reached) default. -/
def getA (l : List (Audio α)) (i : ℕ) : Audio α :=
  l.getD i create_null

/-- Modelled from the spec: the buffer's time-to-frame conversion turns a
time in seconds into an integer frame offset at the buffer's sample rate,
truncating fractional-second values downward. -/
def time_to_frame (a : Audio α) (t : ℚ) : ℤ :=
  Int.floor (t * (a.sample_rate : ℚ))

/-- Modelled from the spec: the buffer's frame-to-time conversion, the
time in seconds at which an integer frame index occurs. -/
def frame_to_time (a : Audio α) (f : ℤ) : ℚ :=
  (f : ℚ) / (a.sample_rate : ℚ)

/-- Modelled from the spec: the buffer's duration in seconds, the time of
its one-past-the-end frame. -/
def get_length (a : Audio α) : ℚ :=
  frame_to_time a a.num_frames

/-- Source `Audio::match_sample_rates_or_return_null`: if all input sample
rates already match the maximum rate, return the empty vector (no work
needed); otherwise return every input resampled to the maximum rate.  The
black-box resampler is a parameter. -/
def match_sample_rates_or_return_null (resample : Audio α → ℕ → Audio α)
    (ins : List (Audio α)) : List (Audio α) :=
  if ins.isEmpty then []
  else
    let max_sr := (ins.map (fun a => a.sample_rate)).foldr max 0
    if ins.all (fun a => a.sample_rate = max_sr) then []
    else ins.map (fun a => resample a max_sr)

/-- Source helper `get_max_num_channels`: the greatest per-input channel
count (the same `max_element` computation is inlined in `mix` and
`mix_variable_gain`). -/
def get_max_num_channels (ins : List (Audio α)) : ℕ :=
  (ins.map (fun a => a.num_channels)).foldr max 0

/-- Start-frame schedule of `mix`/`mix_variable_gain`: each start time is
converted to frames by `ins[0]->time_to_frame`, missing entries defaulting
to start time 0. -/
def mix_start_frames (ins : List (Audio α)) (start_times : List ℚ) : ℕ → ℤ :=
  fun i => time_to_frame (getA ins 0) (start_times.getD i 0)

/-- Output frame count of `mix`/`mix_variable_gain`: starting from 0, take
the maximum over inputs of (that input's frame count plus its start-frame
offset); the starting 0 floors the result at 0. -/
def mix_num_frames (ins : List (Audio α)) (sf : ℕ → ℤ) : ℕ :=
  (((List.range ins.length).map
    (fun i => ((getA ins i).num_frames : ℤ) + sf i)).foldr max 0).toNat

/-- The accumulation step of the mixing loops, read off per output
location: input `i` adds `sample * gain` at output (channel, frame)
exactly when the channel is one of its channels, the local frame
`f - sf i` lies in `[0, num_frames)`, and the global frame is inside the
output (`0 <= global_frame && global_frame < format.num_frames`); outside
those bounds the write is silently dropped.  `gain i lf` is the gain the
source applies to input `i` at local frame `lf`. -/
def mix_contribution (ins : List (Audio α)) (sf : ℕ → ℤ) (gain : ℕ → ℕ → α)
    (nf : ℕ) (i ch f : ℕ) : α :=
  if ch < (getA ins i).num_channels ∧ 0 ≤ (f : ℤ) - sf i ∧
      (f : ℤ) - sf i < ((getA ins i).num_frames : ℤ) ∧ f < nf then
    (getA ins i).sample ch ((f : ℤ) - sf i).toNat * gain i ((f : ℤ) - sf i).toNat
  else 0

/-- Core of both mixing entry points: the zero-filled output buffer with
each input's in-bounds writes accumulated additively.  Since each input
writes each of its local frames to a distinct global frame, the imperative
accumulation loops of the source are equivalent to this per-location sum
over inputs. -/
def mix_core (ins : List (Audio α)) (sf : ℕ → ℤ) (gain : ℕ → ℕ → α) : Audio α :=
  { num_channels := get_max_num_channels ins
    num_frames := mix_num_frames ins sf
    sample_rate := (getA ins 0).sample_rate
    sample := fun ch f =>
      ∑ i in Finset.range ins.length,
        mix_contribution ins sf gain (mix_num_frames ins sf) i ch f }

/-- Source `Audio::mix` (constant gain): empty input gives the null
buffer; sample rates are reconciled; start times and amplitudes are padded
with defaults 0 and 1; the output format takes the maximum channel count,
the maximum required frame count, and `ins[0]`'s sample rate; each input
is accumulated with its constant amplitude. -/
def mix (resample : Audio α → ℕ → Audio α) (ins_unmatched : List (Audio α))
    (start_times : List ℚ) (amplitudes : List α) : Audio α :=
  if ins_unmatched.isEmpty then create_null
  else
    let matched := match_sample_rates_or_return_null resample ins_unmatched
    let ins := if matched.isEmpty then ins_unmatched else matched
    mix_core ins (mix_start_frames ins start_times)
      (fun i _ => amplitudes.getD i 1)

/-- Modelled from the spec: `Function::sample( start, end, step )`
materializes the ordered sequence of outputs of the function at a fixed
step over the half-open index range; element `k` of the sequence is the
function at `(start + k) * step`.  We keep the sequence as its indexing
function. -/
def function_sample (f : ℚ → α) (start : ℤ) (step : ℚ) : ℕ → α :=
  fun k => f (((start : ℚ) + (k : ℚ)) * step)

/-- The per-input gain lookup of `mix_variable_gain`: each gain function
(missing entries defaulting to the constant-1 function) is sampled from
its input's global start frame over that input's local frame range at that
input's seconds-per-frame step, then indexed by local frame — so the gain
is always evaluated in global time even though indexing is local. -/
def variable_gain (ins : List (Audio α)) (sf : ℕ → ℤ)
    (amplitudes : List (ℚ → α)) : ℕ → ℕ → α :=
  fun i lf =>
    function_sample (amplitudes.getD i (fun _ => 1)) (sf i)
      (frame_to_time (getA ins i) 1) lf

/-- Source `Audio::mix_variable_gain`: as `mix`, but each input's gain at
a local frame is looked up from its sampled gain function. -/
def mix_variable_gain (resample : Audio α → ℕ → Audio α)
    (ins_unmatched : List (Audio α)) (start_times : List ℚ)
    (amplitudes : List (ℚ → α)) : Audio α :=
  if ins_unmatched.isEmpty then create_null
  else
    let matched := match_sample_rates_or_return_null resample ins_unmatched
    let ins := if matched.isEmpty then ins_unmatched else matched
    mix_core ins (mix_start_frames ins start_times)
      (variable_gain ins (mix_start_frames ins start_times) amplitudes)

/-- Modelled from the spec: `Audio::sample_function_over_domain` samples a
continuous function over the buffer's own time domain, one value per
frame, starting at time 0 — the value at frame `f` is the function at the
time of frame `f`. -/
def sample_function_over_domain (a : Audio α) (f : ℚ → α) : ℕ → α :=
  fun frame => f (frame_to_time a frame)

/-- Source `Audio::mix_in_place`: `other` is resampled only if its rate
differs from the target's; the channel count is the minimum of the two;
the gain function is sampled over the rate-corrected source's own domain;
each source frame is accumulated at `time_to_frame( start_time ) +
other_frame` when that global frame lies inside the existing target (no
zero-fill, no resize), and is skipped otherwise. -/
def mix_in_place (resample : Audio α → ℕ → Audio α) (target other : Audio α)
    (start_time : ℚ) (other_amplitude : ℚ → α) : Audio α :=
  let src := if target.sample_rate = other.sample_rate then other
             else resample other target.sample_rate
  let nc := min target.num_channels src.num_channels
  let sampled := sample_function_over_domain src other_amplitude
  let sf := time_to_frame target start_time
  { target with
    sample := fun ch f =>
      target.sample ch f +
        (if ch < nc ∧ 0 ≤ (f : ℤ) - sf ∧ (f : ℤ) - sf < (src.num_frames : ℤ) ∧
            f < target.num_frames then
          src.sample ch ((f : ℤ) - sf).toNat * sampled ((f : ℤ) - sf).toNat
        else 0) }

/-- The start-time schedule built by `Audio::join`: the running sums,
with binary operation `a + b + offset`, of the lengths of the inputs
preceded by 0 and with the last length dropped — so the k-th start time is
the sum of all prior input lengths plus `k * offset`. -/
def join_start_times (ins : List (Audio α)) (offset : ℚ) : List ℚ :=
  match (0 :: ins.map get_length).dropLast with
  | [] => []
  | x :: xs => List.scanl (fun a b => a + b + offset) x xs

/-- Source `Audio::join`: empty input gives the null buffer; otherwise the
inputs are mixed at the sequential start-time schedule with no explicit
amplitudes (defaulting to gain 1). -/
def join (resample : Audio α → ℕ → Audio α) (ins : List (Audio α))
    (offset : ℚ) : Audio α :=
  if ins.isEmpty then create_null
  else mix resample ins (join_start_times ins offset) []

/-- The balance function `Audio::select` builds for input index `i`: zero
when the distance from the selection value to `i` is at least 1, and the
square root of one minus that distance otherwise.  The source's
`std::sqrt` is passed as an explicit function `sqrtF`. -/
def balance (sqrtF : α → α) (selection : ℚ → α) (i : ℕ) : ℚ → α :=
  fun t =>
    if 1 ≤ |selection t - (i : α)| then 0
    else sqrtF (1 - |selection t - (i : α)|)

/-- Source `Audio::select`: generates one balance function per input index
from the selection function and delegates to `mix_variable_gain`. -/
def select (resample : Audio α → ℕ → Audio α) (sqrtF : α → α)
    (ins : List (Audio α)) (selection : ℚ → α)
    (start_times : List ℚ) : Audio α :=
  mix_variable_gain resample ins start_times
    ((List.range ins.length).map (balance sqrtF selection))

/-- Modelled from the spec: `power_of_2_container( n )` is the smallest
power of two at least `n`, so that `2 * power_of_2_container( max )` is
the smallest power of two at least twice the larger input length. -/
def power_of_2_container (n : ℕ) : ℕ :=
  2 ^ Nat.clog 2 n

/-- Length-`N` circular convolution of two zero-padded sample sequences.
Modelled from the spec: the Transform Primitive (`FFTHelper`, external to
`AudioCombination.cpp`) is a black-box real-to-complex DFT pair with an
unnormalized inverse; per the spec, bin-by-bin multiplication of the two
spectra realizes convolution in the time domain, and together with the
source's division of both time-domain copies by `sqrt( dft_size )` the
composite forward–multiply–inverse pipeline yields exactly the length-`N`
circular convolution of the two zero-padded channels. -/
def circular_convolution (N : ℕ) (x y : ℕ → α) (f : ℕ) : α :=
  ∑ j in Finset.range N, x j * y ((f + (N - j)) % N)

/-- Modelled from the spec: the buffer accessor returning the maximum
absolute sample magnitude over the full buffer. -/
def get_max_sample_magnitude (a : Audio α) : α :=
  ((List.range a.num_channels).map (fun ch =>
    ((List.range a.num_frames).map (fun f => |a.sample ch f|)).foldr max 0)).foldr max 0

/-- Modelled from the spec: the buffer accessor scaling every sample by a
constant volume factor. -/
def modify_volume_in_place (a : Audio α) (g : α) : Audio α :=
  { a with sample := fun ch f => a.sample ch f * g }

/-- Source `Audio::convolve`: null signal or null impulse response gives
the null buffer; the impulse response (never the signal) is resampled to
the signal's rate if the rates differ; the output has the signal's channel
count, the signal's rate, and signal frames plus (rate-corrected) impulse
response frames; each output channel holds the circular convolution over
the transform size of the zero-padded signal channel with the zero-padded
impulse-response channel (wrapping via modulo when the impulse response
has fewer channels); if `normalize` is set the output is scaled by the
reciprocal of its maximum absolute sample magnitude. -/
def convolve (resample : Audio α → ℕ → Audio α) (signal ir : Audio α)
    (normalize : Bool) : Audio α :=
  if is_null signal then create_null
  else if is_null ir then create_null
  else
    let sr_correct_ir := if signal.sample_rate = ir.sample_rate then ir
                         else resample ir signal.sample_rate
    let nf := signal.num_frames + sr_correct_ir.num_frames
    let dft_size := 2 * power_of_2_container
      (max signal.num_frames sr_correct_ir.num_frames)
    let padded_signal : ℕ → ℕ → α := fun ch j =>
      if j < signal.num_frames then signal.sample ch j else 0
    let padded_ir : ℕ → ℕ → α := fun ch j =>
      if j < sr_correct_ir.num_frames then
        sr_correct_ir.sample (ch % sr_correct_ir.num_channels) j
      else 0
    let out : Audio α :=
      { num_channels := signal.num_channels
        num_frames := nf
        sample_rate := signal.sample_rate
        sample := fun ch f =>
          if ch < signal.num_channels ∧ f < nf then
            circular_convolution dft_size (padded_signal ch) (padded_ir ch) f
          else 0 }
    if normalize then
      modify_volume_in_place out (1 / get_max_sample_magnitude out)
    else out

/-!  Helper lemmas. -/

lemma foldr_max_of_all_eq (r : ℕ) :
    ∀ (l : List ℕ), l ≠ [] → (∀ x ∈ l, x = r) → l.foldr max 0 = r := by
  intro l
  induction l with
  | nil => intro h; exact absurd rfl h
  | cons x xs ih =>
    intro _ hall
    rcases List.eq_nil_or_concat xs with h | _
    · subst h
      simpa using hall x (by simp)
    · by_cases hxs : xs = []
      · subst hxs
        simpa using hall x (by simp)
      · have hx : x = r := hall x (by simp)
        have hxs' : xs.foldr max 0 = r :=
          ih hxs (fun y hy => hall y (List.mem_cons_of_mem _ hy))
        simp [List.foldr_cons, hx, hxs']

lemma getA_mem {l : List (Audio α)} (h : l ≠ []) : getA l 0 ∈ l := by
  rcases List.exists_cons_of_ne_nil h with ⟨x, xs, rfl⟩
  simp [getA]

lemma match_sample_rates_of_all_eq (resample : Audio α → ℕ → Audio α)
    {ins : List (Audio α)} (hne : ins ≠ [])
    (h : ∀ a ∈ ins, a.sample_rate = (getA ins 0).sample_rate) :
    match_sample_rates_or_return_null resample ins = [] := by
  have hmax : (ins.map (fun a => a.sample_rate)).foldr max 0 =
      (getA ins 0).sample_rate := by
    refine foldr_max_of_all_eq _ _ (by simpa using hne) ?_
    intro x hx
    rcases List.mem_map.mp hx with ⟨a, ha, rfl⟩
    exact h a ha
  have hall : ins.all (fun a => a.sample_rate =
      (ins.map (fun a => a.sample_rate)).foldr max 0) = true := by
    rw [List.all_eq_true]
    intro a ha
    simp only [decide_eq_true_eq, hmax]
    exact h a ha
  unfold match_sample_rates_or_return_null
  simp only [List.isEmpty_eq_true, hne, if_false, hall, if_true]

lemma mix_eq_core (resample : Audio α → ℕ → Audio α) {ins : List (Audio α)}
    (st : List ℚ) (amps : List α) (hne : ins ≠ [])
    (hsr : ∀ a ∈ ins, a.sample_rate = (getA ins 0).sample_rate) :
    mix resample ins st amps =
      mix_core ins (mix_start_frames ins st) (fun i _ => amps.getD i 1) := by
  unfold mix
  simp only [List.isEmpty_eq_true, hne, if_false,
    match_sample_rates_of_all_eq resample hne hsr, List.isEmpty_nil, if_true]

lemma mix_variable_gain_eq_core (resample : Audio α → ℕ → Audio α)
    {ins : List (Audio α)} (st : List ℚ) (amps : List (ℚ → α)) (hne : ins ≠ [])
    (hsr : ∀ a ∈ ins, a.sample_rate = (getA ins 0).sample_rate) :
    mix_variable_gain resample ins st amps =
      mix_core ins (mix_start_frames ins st)
        (variable_gain ins (mix_start_frames ins st) amps) := by
  unfold mix_variable_gain
  simp only [List.isEmpty_eq_true, hne, if_false,
    match_sample_rates_of_all_eq resample hne hsr, List.isEmpty_nil, if_true]

/-!  Theorems for the claims. -/

/-- Claim C9: for every non-empty input list, if all inputs already share
one sample rate then `match_sample_rates_or_return_null` returns the empty
collection (no substitution needed); otherwise it returns every input
resampled (by the black-box resampler) to the maximum sample rate found
among the inputs. -/
theorem reconcile_sample_rates_spec (resample : Audio α → ℕ → Audio α)
    (ins : List (Audio α)) (hne : ins ≠ []) :
    ((∀ a ∈ ins, a.sample_rate = (getA ins 0).sample_rate) →
      match_sample_rates_or_return_null resample ins = []) ∧
    (¬ (∀ a ∈ ins, a.sample_rate = (getA ins 0).sample_rate) →
      match_sample_rates_or_return_null resample ins =
        ins.map (fun a =>
          resample a ((ins.map (fun a => a.sample_rate)).foldr max 0))) := by
  constructor
  · exact fun h => match_sample_rates_of_all_eq resample hne h
  · intro hdiff
    have hall : ins.all (fun a => a.sample_rate =
        (ins.map (fun a => a.sample_rate)).foldr max 0) = false := by
      by_contra hcon
      have htrue : ins.all (fun a => a.sample_rate =
          (ins.map (fun a => a.sample_rate)).foldr max 0) = true := by
        cases hb : ins.all (fun a => a.sample_rate =
            (ins.map (fun a => a.sample_rate)).foldr max 0)
        · exact absurd hb hcon
        · rfl
      rw [List.all_eq_true] at htrue
      apply hdiff
      intro a ha
      have h1 : a.sample_rate =
          (ins.map (fun a => a.sample_rate)).foldr max 0 := by
        simpa using htrue a ha
      have h2 : (getA ins 0).sample_rate =
          (ins.map (fun a => a.sample_rate)).foldr max 0 := by
        simpa using htrue _ (getA_mem hne)
      rw [h1, h2]
    unfold match_sample_rates_or_return_null
    simp only [List.isEmpty_eq_true, hne, if_false, hall]
    simp

/-- Witness for C9: on a concrete two-element list with equal rates the
reconciliation returns the empty collection. -/
theorem reconcile_sample_rates_spec_witness :
    (([⟨1, 1, 7, fun _ _ => 0⟩, ⟨2, 3, 7, fun _ _ => 1⟩] :
        List (Audio ℚ)) ≠ []) ∧
    match_sample_rates_or_return_null (fun a _ => a)
      [⟨1, 1, 7, fun _ _ => 0⟩, ⟨2, 3, 7, fun _ _ => (1 : ℚ)⟩] = [] := by
  refine ⟨by simp, ?_⟩
  exact (reconcile_sample_rates_spec (fun a _ => a) _ (by simp)).1
    (by intro a ha; fin_cases ha <;> rfl)

lemma le_foldr_max (l : List ℤ) (x : ℤ) (hx : x ∈ l) : x ≤ l.foldr max 0 := by
  induction l with
  | nil => cases hx
  | cons y ys ih =>
    rcases List.mem_cons.mp hx with rfl | h
    · exact le_max_left _ _
    · exact (ih h).trans (le_max_right _ _)

lemma lt_mix_num_frames {ins : List (Audio α)} {sf : ℕ → ℤ} {i : ℕ}
    (hi : i < ins.length) {f : ℕ}
    (h : (f : ℤ) < ((getA ins i).num_frames : ℤ) + sf i) :
    f < mix_num_frames ins sf := by
  have hmem : ((getA ins i).num_frames : ℤ) + sf i ∈
      (List.range ins.length).map
        (fun i => ((getA ins i).num_frames : ℤ) + sf i) :=
    List.mem_map.mpr ⟨i, List.mem_range.mpr hi, rfl⟩
  have := le_foldr_max _ _ hmem
  unfold mix_num_frames
  omega

lemma mix_contribution_eq {ins : List (Audio α)} {sf : ℕ → ℤ}
    {gain : ℕ → ℕ → α} {nf i ch f : ℕ} (lf : ℕ)
    (h1 : ch < (getA ins i).num_channels) (h2 : (f : ℤ) - sf i = lf)
    (h3 : lf < (getA ins i).num_frames) (h4 : f < nf) :
    mix_contribution ins sf gain nf i ch f =
      (getA ins i).sample ch lf * gain i lf := by
  unfold mix_contribution
  rw [if_pos ⟨h1, by omega, by omega, h4⟩]
  rw [h2]
  simp

lemma mix_contribution_eq_zero {ins : List (Audio α)} {sf : ℕ → ℤ}
    {gain : ℕ → ℕ → α} {nf i ch f : ℕ}
    (h : (f : ℤ) - sf i < 0 ∨ ((getA ins i).num_frames : ℤ) ≤ (f : ℤ) - sf i) :
    mix_contribution ins sf gain nf i ch f = 0 := by
  unfold mix_contribution
  rw [if_neg]
  rintro ⟨-, h2, h3, -⟩
  omega

lemma mix_core_sample_two (a b : Audio α) (sf : ℕ → ℤ) (gain : ℕ → ℕ → α)
    (ch f : ℕ) :
    (mix_core [a, b] sf gain).sample ch f =
      mix_contribution [a, b] sf gain (mix_num_frames [a, b] sf) 0 ch f +
      mix_contribution [a, b] sf gain (mix_num_frames [a, b] sf) 1 ch f := by
  have h : (mix_core [a, b] sf gain).sample ch f =
      ∑ i in Finset.range 2,
        mix_contribution [a, b] sf gain (mix_num_frames [a, b] sf) i ch f := rfl
  rw [h, Finset.sum_range_succ, Finset.sum_range_one]

/-- Claim C1: for every non-empty input list over one common sample rate,
the buffers returned by `mix` and `mix_variable_gain` have channel count
equal to the maximum channel count over the inputs, frame count equal to
the maximum over inputs of (that input's frame count plus its start-frame
offset) floored at 0, and the common sample rate; every sample is the
additive accumulation of the per-input contributions over a zero-filled
buffer, so a location no input writes to is 0. -/
theorem mix_output_format (resample : Audio α → ℕ → Audio α)
    (ins : List (Audio α)) (st : List ℚ) (amps : List α)
    (ampfs : List (ℚ → α)) (hne : ins ≠ [])
    (hsr : ∀ a ∈ ins, a.sample_rate = (getA ins 0).sample_rate) :
    (mix resample ins st amps).num_channels = get_max_num_channels ins ∧
    (mix resample ins st amps).num_frames =
      mix_num_frames ins (mix_start_frames ins st) ∧
    (mix resample ins st amps).sample_rate = (getA ins 0).sample_rate ∧
    (∀ ch f, (mix resample ins st amps).sample ch f =
      ∑ i in Finset.range ins.length,
        mix_contribution ins (mix_start_frames ins st)
          (fun i _ => amps.getD i 1)
          (mix_num_frames ins (mix_start_frames ins st)) i ch f) ∧
    (∀ ch f, (∀ i ∈ Finset.range ins.length,
        mix_contribution ins (mix_start_frames ins st)
          (fun i _ => amps.getD i 1)
          (mix_num_frames ins (mix_start_frames ins st)) i ch f = 0) →
      (mix resample ins st amps).sample ch f = 0) ∧
    (mix_variable_gain resample ins st ampfs).num_channels =
      get_max_num_channels ins ∧
    (mix_variable_gain resample ins st ampfs).num_frames =
      mix_num_frames ins (mix_start_frames ins st) ∧
    (mix_variable_gain resample ins st ampfs).sample_rate =
      (getA ins 0).sample_rate ∧
    (∀ ch f, (mix_variable_gain resample ins st ampfs).sample ch f =
      ∑ i in Finset.range ins.length,
        mix_contribution ins (mix_start_frames ins st)
          (variable_gain ins (mix_start_frames ins st) ampfs)
          (mix_num_frames ins (mix_start_frames ins st)) i ch f) ∧
    (∀ ch f, (∀ i ∈ Finset.range ins.length,
        mix_contribution ins (mix_start_frames ins st)
          (variable_gain ins (mix_start_frames ins st) ampfs)
          (mix_num_frames ins (mix_start_frames ins st)) i ch f = 0) →
      (mix_variable_gain resample ins st ampfs).sample ch f = 0) := by
  rw [mix_eq_core resample st amps hne hsr,
    mix_variable_gain_eq_core resample st ampfs hne hsr]
  refine ⟨rfl, rfl, rfl, fun ch f => rfl, ?_, rfl, rfl, rfl,
    fun ch f => rfl, ?_⟩
  · intro ch f h
    exact Finset.sum_eq_zero h
  · intro ch f h
    exact Finset.sum_eq_zero h

/-- Witness for C1: concrete two-input mix has frame count `max` of
frames-plus-offset and samples given by the contribution sum. -/
theorem mix_output_format_witness :
    (([(⟨2, 3, 10, fun ch f => (ch : ℚ) + f⟩ : Audio ℚ),
       ⟨1, 2, 10, fun ch f => (ch : ℚ) - f⟩] : List (Audio ℚ)) ≠ []) ∧
    (mix (fun a _ => a)
      [⟨2, 3, 10, fun ch f => (ch : ℚ) + f⟩,
       ⟨1, 2, 10, fun ch f => (ch : ℚ) - f⟩] [0, (1 : ℚ)/10] []).num_frames =
      mix_num_frames
        [⟨2, 3, 10, fun ch f => (ch : ℚ) + f⟩,
         ⟨1, 2, 10, fun ch f => (ch : ℚ) - f⟩]
        (mix_start_frames
          [⟨2, 3, 10, fun ch f => (ch : ℚ) + f⟩,
           ⟨1, 2, 10, fun ch f => (ch : ℚ) - f⟩] [0, (1 : ℚ)/10]) := by
  refine ⟨by simp, ?_⟩
  exact (mix_output_format (fun a _ => a) _ _ [] [] (by simp)
    (by intro a ha; fin_cases ha <;> rfl)).2.1

/-- Claim C3: for all buffers `a` and `b` with the same sample rate,
`mix([a, b])` at equal start times with gain 1 each produces, at every
channel and frame covered by both inputs, the arithmetic sum of `a`'s and
`b`'s samples at that location: contributions from distinct inputs
accumulate additively and never overwrite. -/
theorem mix_additivity (resample : Audio α → ℕ → Audio α) (a b : Audio α)
    (s : ℚ) (hsr : b.sample_rate = a.sample_rate)
    (ch lf gf : ℕ) (hcha : ch < a.num_channels) (hchb : ch < b.num_channels)
    (hlfa : lf < a.num_frames) (hlfb : lf < b.num_frames)
    (hgf : (gf : ℤ) = time_to_frame a s + lf) :
    (mix resample [a, b] [s, s] [1, 1]).sample ch gf =
      a.sample ch lf + b.sample ch lf := by
  have hsr' : ∀ x ∈ [a, b], x.sample_rate = (getA [a, b] 0).sample_rate := by
    intro x hx
    fin_cases hx
    · rfl
    · simpa [getA] using hsr
  rw [mix_eq_core resample [s, s] [1, 1] (by simp) hsr']
  rw [mix_core_sample_two]
  have hsf0 : mix_start_frames [a, b] [s, s] 0 = time_to_frame a s := by
    simp [mix_start_frames, getA]
  have hsf1 : mix_start_frames [a, b] [s, s] 1 = time_to_frame a s := by
    simp [mix_start_frames, getA]
  have hga : getA [a, b] 0 = a := rfl
  have hgb : getA [a, b] 1 = b := rfl
  have hlfa' : (lf : ℤ) < ((getA [a, b] 0).num_frames : ℤ) := by
    rw [hga]; exact_mod_cast hlfa
  have hnf : gf < mix_num_frames [a, b] (mix_start_frames [a, b] [s, s]) := by
    refine lt_mix_num_frames (i := 0) (by simp) ?_
    rw [hsf0]
    omega
  rw [mix_contribution_eq lf (by rw [hga]; exact hcha) (by rw [hsf0]; omega)
      (by rw [hga]; exact hlfa) hnf,
    mix_contribution_eq lf (by rw [hgb]; exact hchb) (by rw [hsf1]; omega)
      (by rw [hgb]; exact hlfb) hnf]
  rw [hga, hgb]
  simp

/-- Witness for C3: on concrete same-rate buffers the mixed sample at an
overlapping location is the sum of the two input samples. -/
theorem mix_additivity_witness :
    ((⟨1, 2, 5, fun _ f => (f : ℚ) + 1⟩ : Audio ℚ).sample_rate =
      (⟨1, 3, 5, fun _ f => 2 * (f : ℚ)⟩ : Audio ℚ).sample_rate) ∧
    (mix (fun a _ => a)
      [⟨1, 3, 5, fun _ f => 2 * (f : ℚ)⟩, ⟨1, 2, 5, fun _ f => (f : ℚ) + 1⟩]
      [(1 : ℚ)/5, (1 : ℚ)/5] [1, 1]).sample 0 2 = 2 * 1 + (1 + 1) := by
  constructor
  · rfl
  · have h := mix_additivity (fun a _ => a)
      (⟨1, 3, 5, fun _ f => 2 * (f : ℚ)⟩ : Audio ℚ)
      (⟨1, 2, 5, fun _ f => (f : ℚ) + 1⟩ : Audio ℚ) ((1 : ℚ)/5) rfl
      0 1 2 (by decide) (by decide) (by decide) (by decide)
      (by norm_num [time_to_frame])
    rw [h]
    norm_num

lemma scanl_getD_sum (offset : ℚ) (ys : List ℚ) :
    ∀ (acc : ℚ) (k : ℕ), k ≤ ys.length →
      (List.scanl (fun a b => a + b + offset) acc ys).getD k 0 =
        acc + (∑ j in Finset.range k, ys.getD j 0) + k * offset := by
  induction ys with
  | nil =>
    intro acc k hk
    have hk0 : k = 0 := by simpa using hk
    subst hk0
    simp
  | cons y ys ih =>
    intro acc k hk
    cases k with
    | zero => simp
    | succ k =>
      rw [List.scanl_cons, List.singleton_append, List.getD_cons_succ,
        ih (acc + y + offset) k (by simpa using hk), Finset.sum_range_succ']
      simp only [List.getD_cons_succ, List.getD_cons_zero]
      push_cast
      ring

omit [LinearOrderedField α] in
lemma join_start_times_eq_scanl (x : Audio α) (xs : List (Audio α))
    (offset : ℚ) :
    join_start_times (x :: xs) offset =
      List.scanl (fun a b => a + b + offset) 0
        ((List.map get_length (x :: xs)).dropLast) := by
  unfold join_start_times
  simp only [List.map_cons, List.dropLast_cons₂]

/-- Claim C5: for every non-empty input list, `join(inputs, offset)`
gives the k-th input a start time equal to the sum of the lengths of all
prior inputs plus `k * offset`, and mixes at that schedule with default
gain 1; in particular `join([a, b], 0)` yields a buffer whose first
`a.num_frames` frames equal `a`, whose remaining frames equal `b`, and
whose total duration is `get_length a + get_length b`. -/
theorem join_sequential (resample : Audio α → ℕ → Audio α)
    (ins : List (Audio α)) (offset : ℚ) (a b : Audio α)
    (hsr : b.sample_rate = a.sample_rate) (hpos : 0 < a.sample_rate) :
    (∀ k, k < ins.length → (join_start_times ins offset).getD k 0 =
      (∑ j in Finset.range k, get_length (getA ins j)) + k * offset) ∧
    (ins ≠ [] → join resample ins offset =
      mix resample ins (join_start_times ins offset) []) ∧
    (join resample [a, b] 0).num_frames = a.num_frames + b.num_frames ∧
    get_length (join resample [a, b] 0) = get_length a + get_length b ∧
    (∀ ch f, ch < a.num_channels → f < a.num_frames →
      (join resample [a, b] 0).sample ch f = a.sample ch f) ∧
    (∀ ch f, ch < b.num_channels → a.num_frames ≤ f →
      f < a.num_frames + b.num_frames →
      (join resample [a, b] 0).sample ch f =
        b.sample ch (f - a.num_frames)) := by
  have hsched : ∀ k, k < ins.length →
      (join_start_times ins offset).getD k 0 =
        (∑ j in Finset.range k, get_length (getA ins j)) + k * offset := by
    intro k hk
    have hne : ins ≠ [] := by
      intro h
      subst h
      simp at hk
    obtain ⟨x, xs, rfl⟩ := List.exists_cons_of_ne_nil hne
    rw [join_start_times_eq_scanl, scanl_getD_sum offset _ 0 k
      (by simp at hk ⊢; omega)]
    rw [zero_add]
    congr 1
    apply Finset.sum_congr rfl
    intro j hj
    have hj' : j < ((List.map get_length (x :: xs)).dropLast).length := by
      simp only [List.length_dropLast, List.length_map, List.length_cons]
      have := Finset.mem_range.mp hj
      simp at hk
      omega
    have hj'' : j < (List.map get_length (x :: xs)).length := by
      simp only [List.length_dropLast] at hj'
      omega
    have hj''' : j < (x :: xs).length := by simpa using hj''
    rw [List.getD_eq_getElem _ _ hj', List.getElem_dropLast,
      List.getElem_map]
    unfold getA
    rw [List.getD_eq_getElem _ _ hj''']
  have hjoin_eq : ∀ (ins' : List (Audio α)) (off : ℚ), ins' ≠ [] →
      join resample ins' off = mix resample ins'
        (join_start_times ins' off) [] := by
    intro ins' off hne
    unfold join
    simp only [List.isEmpty_eq_true, hne, if_false]
  -- The two-input instance at offset 0.
  have hsr' : ∀ x ∈ [a, b], x.sample_rate = (getA [a, b] 0).sample_rate := by
    intro x hx
    fin_cases hx
    · rfl
    · simpa [getA] using hsr
  have hga : getA [a, b] 0 = a := rfl
  have hgb : getA [a, b] 1 = b := rfl
  have hst : join_start_times [a, b] (0 : ℚ) =
      [0, 0 + get_length a + 0] := rfl
  have hj2 : join resample [a, b] 0 = mix_core [a, b]
      (mix_start_frames [a, b] (join_start_times [a, b] 0))
      (fun i _ => ([] : List α).getD i 1) := by
    rw [hjoin_eq [a, b] 0 (by simp),
      mix_eq_core resample _ [] (by simp) hsr']
  have hsf0 : mix_start_frames [a, b] (join_start_times [a, b] 0) 0 = 0 := by
    simp [mix_start_frames, hst, time_to_frame, getA]
  have hsf1 : mix_start_frames [a, b] (join_start_times [a, b] 0) 1 =
      (a.num_frames : ℤ) := by
    have hz : ((a.sample_rate : ℚ)) ≠ 0 := by
      exact_mod_cast hpos.ne'
    have harg : get_length a * (a.sample_rate : ℚ) = (a.num_frames : ℚ) := by
      field_simp [get_length, frame_to_time]
    have hgd : (join_start_times [a, b] (0 : ℚ)).getD 1 0 = get_length a := by
      rw [hst]
      show (0 : ℚ) + get_length a + 0 = get_length a
      ring
    show time_to_frame (getA [a, b] 0) ((join_start_times [a, b] 0).getD 1 0) =
      (a.num_frames : ℤ)
    rw [hga, hgd]
    unfold time_to_frame
    rw [harg]
    exact Int.floor_natCast _
  have hnfv : mix_num_frames [a, b]
      (mix_start_frames [a, b] (join_start_times [a, b] 0)) =
      a.num_frames + b.num_frames := by
    have hr2 : List.range 2 = [0, 1] := rfl
    have hl2 : ([a, b] : List (Audio α)).length = 2 := rfl
    unfold mix_num_frames
    rw [hl2, hr2]
    simp only [List.map_cons, List.map_nil, List.foldr_cons, List.foldr_nil]
    rw [hsf0, hsf1, hga, hgb]
    omega
  refine ⟨hsched, fun h => hjoin_eq ins offset h, ?_, ?_, ?_, ?_⟩
  · rw [hj2]
    exact hnfv
  · rw [hj2]
    unfold get_length frame_to_time
    have hnc : (mix_core [a, b]
        (mix_start_frames [a, b] (join_start_times [a, b] 0))
        (fun i _ => ([] : List α).getD i 1)).num_frames =
        a.num_frames + b.num_frames := hnfv
    rw [hnc]
    have hsrc : (mix_core [a, b]
        (mix_start_frames [a, b] (join_start_times [a, b] 0))
        (fun i _ => ([] : List α).getD i 1)).sample_rate = a.sample_rate := rfl
    rw [hsrc, hsr]
    push_cast
    ring
  · intro ch f hch hf
    rw [hj2, mix_core_sample_two]
    rw [mix_contribution_eq f (by rw [hga]; exact hch) (by rw [hsf0]; omega)
      (by rw [hga]; exact hf) (by rw [hnfv]; omega)]
    rw [mix_contribution_eq_zero (Or.inl (by rw [hsf1]; omega))]
    rw [hga]
    simp
  · intro ch f hch hlo hhi
    rw [hj2, mix_core_sample_two]
    rw [mix_contribution_eq_zero (i := 0)
      (Or.inr (by rw [hsf0, hga]; omega))]
    rw [mix_contribution_eq (f - a.num_frames) (by rw [hgb]; exact hch)
      (by rw [hsf1]; omega)
      (by rw [hgb]; omega) (by rw [hnfv]; omega)]
    rw [hgb]
    simp

/-- Witness for C5: joining two concrete one-frame buffers at offset 0
places the second buffer's sample at frame 1. -/
theorem join_sequential_witness :
    ((⟨1, 1, 1, fun _ _ => 5⟩ : Audio ℚ).sample_rate =
      (⟨1, 1, 1, fun _ _ => 3⟩ : Audio ℚ).sample_rate) ∧
    (0 < (⟨1, 1, 1, fun _ _ => (3 : ℚ)⟩ : Audio ℚ).sample_rate) ∧
    (join (fun a _ => a)
      [(⟨1, 1, 1, fun _ _ => 3⟩ : Audio ℚ), ⟨1, 1, 1, fun _ _ => 5⟩]
      0).sample 0 1 = 5 := by
  refine ⟨rfl, by decide, ?_⟩
  have h := (join_sequential (fun a _ => a) [] 0
    (⟨1, 1, 1, fun _ _ => 3⟩ : Audio ℚ) (⟨1, 1, 1, fun _ _ => 5⟩ : Audio ℚ)
    rfl (by decide)).2.2.2.2.2 0 1 (by decide) (by decide) (by decide)
  rw [h]

/-- Claim C10: in `mix_in_place` the gain function is sampled over the
(rate-corrected) other buffer's own local time domain starting at time 0:
for every start time, the gain applied to the other buffer's frame `of`
is the gain function at the time of frame `of` on the other buffer's
local time axis, independent of the start time.  By contrast (second
conjunct), `mix_variable_gain` anchors its gain schedule at the input's
global start frame: the gain applied at local frame `lf` is the function
at `(start_frame + lf) * seconds_per_frame`, which does depend on the
start time. -/
theorem mix_in_place_gain_is_local (resample : Audio α → ℕ → Audio α)
    (target other : Audio α) (st st' : ℚ) (amp : ℚ → α)
    (hsr : target.sample_rate = other.sample_rate) :
    (∀ ch of tf : ℕ,
      ch < min target.num_channels other.num_channels →
      (tf : ℤ) = time_to_frame target st + of →
      of < other.num_frames → tf < target.num_frames →
      (mix_in_place resample target other st amp).sample ch tf =
        target.sample ch tf +
          other.sample ch of * amp (frame_to_time other of)) ∧
    (∀ ch gf lf : ℕ, ch < other.num_channels →
      (gf : ℤ) = time_to_frame other st' + lf → lf < other.num_frames →
      (mix_variable_gain resample [other] [st'] [amp]).sample ch gf =
        other.sample ch lf *
          amp (((time_to_frame other st' + lf : ℤ) : ℚ) *
            frame_to_time other 1)) := by
  constructor
  · intro ch of tf hch htf hof htb
    have hmip : mix_in_place resample target other st amp =
        { target with
          sample := fun ch f =>
            target.sample ch f +
              (if ch < min target.num_channels other.num_channels ∧
                  0 ≤ (f : ℤ) - time_to_frame target st ∧
                  (f : ℤ) - time_to_frame target st < (other.num_frames : ℤ) ∧
                  f < target.num_frames then
                other.sample ch ((f : ℤ) - time_to_frame target st).toNat *
                  sample_function_over_domain other amp
                    ((f : ℤ) - time_to_frame target st).toNat
              else 0) } := by
      unfold mix_in_place
      rw [if_pos hsr]
    rw [hmip]
    show target.sample ch tf + _ = _
    rw [if_pos ⟨hch, by omega, by omega, htb⟩]
    have hto : ((tf : ℤ) - time_to_frame target st).toNat = of := by omega
    rw [hto]
    rfl
  · intro ch gf lf hch hgf hlf
    have hsr1 : ∀ x ∈ [other], x.sample_rate = (getA [other] 0).sample_rate := by
      intro x hx
      fin_cases hx
      rfl
    rw [mix_variable_gain_eq_core resample [st'] [amp] (by simp) hsr1]
    have hgo : getA [other] 0 = other := rfl
    have hsf0 : mix_start_frames [other] [st'] 0 = time_to_frame other st' := by
      simp [mix_start_frames, getA]
    have hsum : (mix_core [other] (mix_start_frames [other] [st'])
        (variable_gain [other] (mix_start_frames [other] [st']) [amp])).sample
          ch gf =
        mix_contribution [other] (mix_start_frames [other] [st'])
          (variable_gain [other] (mix_start_frames [other] [st']) [amp])
          (mix_num_frames [other] (mix_start_frames [other] [st'])) 0 ch gf := by
      have h : (mix_core [other] (mix_start_frames [other] [st'])
          (variable_gain [other] (mix_start_frames [other] [st']) [amp])).sample
            ch gf =
          ∑ i in Finset.range 1,
            mix_contribution [other] (mix_start_frames [other] [st'])
              (variable_gain [other] (mix_start_frames [other] [st']) [amp])
              (mix_num_frames [other] (mix_start_frames [other] [st'])) i ch gf :=
        rfl
      rw [h, Finset.sum_range_one]
    rw [hsum]
    have hnf : gf < mix_num_frames [other] (mix_start_frames [other] [st']) := by
      refine lt_mix_num_frames (i := 0) (by simp) ?_
      rw [hsf0, hgo]
      omega
    rw [mix_contribution_eq lf (by rw [hgo]; exact hch) (by rw [hsf0]; omega)
      (by rw [hgo]; exact hlf) hnf]
    rw [hgo]
    show other.sample ch lf *
        function_sample (([amp] : List (ℚ → α)).getD 0 (fun _ => 1))
          (mix_start_frames [other] [st'] 0) (frame_to_time (getA [other] 0) 1)
          lf = _
    rw [hsf0, hgo]
    unfold function_sample
    push_cast
    rfl

/-- Witness for C10: on concrete buffers the in-place mix at start time 1
applies the gain at the source's local frame time, not at the shifted
global time. -/
theorem mix_in_place_gain_is_local_witness :
    ((⟨1, 3, 1, fun _ _ => 10⟩ : Audio ℚ).sample_rate =
      (⟨1, 1, 1, fun _ _ => 4⟩ : Audio ℚ).sample_rate) ∧
    (mix_in_place (fun a _ => a) (⟨1, 3, 1, fun _ _ => 10⟩ : Audio ℚ)
      (⟨1, 1, 1, fun _ _ => 4⟩ : Audio ℚ) 1 (fun t => t + 2)).sample 0 1 =
      10 + 4 * (0 + 2) := by
  constructor
  · rfl
  · have h := (mix_in_place_gain_is_local (fun a _ => a)
      (⟨1, 3, 1, fun _ _ => 10⟩ : Audio ℚ) (⟨1, 1, 1, fun _ _ => 4⟩ : Audio ℚ)
      1 0 (fun t => t + 2) rfl).1 0 0 1 (by decide)
      (by norm_num [time_to_frame]) (by decide) (by decide)
    rw [h]
    norm_num [frame_to_time]

lemma mix_contribution_eq_zero_chan {ins : List (Audio α)} {sf : ℕ → ℤ}
    {gain : ℕ → ℕ → α} {nf i ch f : ℕ}
    (h : ¬ ch < (getA ins i).num_channels) :
    mix_contribution ins sf gain nf i ch f = 0 := by
  unfold mix_contribution
  rw [if_neg]
  rintro ⟨h1, -, -, -⟩
  exact h h1

lemma mix_core_two_zero_start (a b : Audio α) (st : List ℚ)
    (gain : ℕ → ℕ → α) (g0 g1 : α)
    (hsf0 : mix_start_frames [a, b] st 0 = 0)
    (hsf1 : mix_start_frames [a, b] st 1 = 0)
    (hg0 : ∀ lf, lf < a.num_frames → gain 0 lf = g0)
    (hg1 : ∀ lf, lf < b.num_frames → gain 1 lf = g1) (ch f : ℕ) :
    (mix_core [a, b] (mix_start_frames [a, b] st) gain).sample ch f =
      (if ch < a.num_channels ∧ f < a.num_frames then a.sample ch f else 0)
        * g0 +
      (if ch < b.num_channels ∧ f < b.num_frames then b.sample ch f else 0)
        * g1 := by
  have hga : getA [a, b] 0 = a := rfl
  have hgb : getA [a, b] 1 = b := rfl
  rw [mix_core_sample_two]
  congr 1
  · by_cases h : ch < a.num_channels ∧ f < a.num_frames
    · rw [mix_contribution_eq f (by rw [hga]; exact h.1) (by rw [hsf0]; omega)
        (by rw [hga]; exact h.2) (by
          refine lt_mix_num_frames (i := 0) (by simp) ?_
          rw [hsf0, hga]
          have := h.2
          omega)]
      rw [hga, hg0 f h.2, if_pos h]
    · rw [if_neg h]
      rcases not_and_or.mp h with h1 | h2
      · rw [mix_contribution_eq_zero_chan (by rw [hga]; exact h1), zero_mul]
      · rw [mix_contribution_eq_zero (Or.inr (by rw [hsf0, hga]; omega)),
          zero_mul]
  · by_cases h : ch < b.num_channels ∧ f < b.num_frames
    · rw [mix_contribution_eq f (by rw [hgb]; exact h.1) (by rw [hsf1]; omega)
        (by rw [hgb]; exact h.2) (by
          refine lt_mix_num_frames (i := 1) (by simp) ?_
          rw [hsf1, hgb]
          have := h.2
          omega)]
      rw [hgb, hg1 f h.2, if_pos h]
    · rw [if_neg h]
      rcases not_and_or.mp h with h1 | h2
      · rw [mix_contribution_eq_zero_chan (by rw [hgb]; exact h1), zero_mul]
      · rw [mix_contribution_eq_zero (Or.inr (by rw [hsf1, hgb]; omega)),
          zero_mul]

/-- Claim C6: `select` builds per-input gain functions
`balance_i(t) = 0` when `|selection(t) - i| >= 1` and
`sqrt(1 - |selection(t) - i|)` otherwise, and delegates to
`mix_variable_gain`; consequently a selection function constantly 0
reduces the two-input select to pure input 0, constantly 1 to pure
input 1, and constantly 0.5 to both adjacent inputs scaled by
`sqrt(0.5)`. -/
theorem select_crossfade (resample : Audio ℝ → ℕ → Audio ℝ) (a b : Audio ℝ)
    (selection : ℚ → ℝ) (hsr : b.sample_rate = a.sample_rate) :
    (select resample Real.sqrt [a, b] selection [] =
      mix_variable_gain resample [a, b] []
        ((List.range 2).map (balance Real.sqrt selection))) ∧
    (∀ (i : ℕ) (t : ℚ), balance Real.sqrt selection i t =
      if 1 ≤ |selection t - (i : ℝ)| then 0
      else Real.sqrt (1 - |selection t - (i : ℝ)|)) ∧
    ((∀ t, selection t = 0) → ∀ ch f,
      (select resample Real.sqrt [a, b] selection []).sample ch f =
        if ch < a.num_channels ∧ f < a.num_frames then a.sample ch f else 0) ∧
    ((∀ t, selection t = 1) → ∀ ch f,
      (select resample Real.sqrt [a, b] selection []).sample ch f =
        if ch < b.num_channels ∧ f < b.num_frames then b.sample ch f else 0) ∧
    ((∀ t, selection t = 1/2) → ∀ ch f,
      (select resample Real.sqrt [a, b] selection []).sample ch f =
        Real.sqrt (1/2) *
          ((if ch < a.num_channels ∧ f < a.num_frames then a.sample ch f
            else 0) +
           (if ch < b.num_channels ∧ f < b.num_frames then b.sample ch f
            else 0))) := by
  have hsr' : ∀ x ∈ [a, b], x.sample_rate = (getA [a, b] 0).sample_rate := by
    intro x hx
    fin_cases hx
    · rfl
    · simpa [getA] using hsr
  have hsel_eq : select resample Real.sqrt [a, b] selection [] =
      mix_core [a, b] (mix_start_frames [a, b] [])
        (variable_gain [a, b] (mix_start_frames [a, b] [])
          ((List.range 2).map (balance Real.sqrt selection))) := by
    show mix_variable_gain resample [a, b] []
        ((List.range 2).map (balance Real.sqrt selection)) = _
    exact mix_variable_gain_eq_core resample [] _ (by simp) hsr'
  have hsf0 : mix_start_frames [a, b] ([] : List ℚ) 0 = 0 := by
    simp [mix_start_frames, time_to_frame, getA]
  have hsf1 : mix_start_frames [a, b] ([] : List ℚ) 1 = 0 := by
    simp [mix_start_frames, time_to_frame, getA]
  have hgain : ∀ (i : ℕ) (lf : ℕ),
      variable_gain [a, b] (mix_start_frames [a, b] [])
        ((List.range 2).map (balance Real.sqrt selection)) i lf =
      ((List.range 2).map (balance Real.sqrt selection)).getD i (fun _ => 1)
        (((mix_start_frames [a, b] ([] : List ℚ) i : ℚ) + (lf : ℚ)) *
          frame_to_time (getA [a, b] i) 1) := fun i lf => rfl
  refine ⟨rfl, fun i t => rfl, ?_, ?_, ?_⟩
  · intro hs ch f
    rw [hsel_eq, mix_core_two_zero_start a b [] _ 1 0 hsf0 hsf1 ?_ ?_]
    · simp
    · intro lf _
      rw [hgain 0 lf]
      show balance Real.sqrt selection 0 _ = 1
      unfold balance
      rw [hs]
      rw [if_neg (by norm_num)]
      norm_num [Real.sqrt_one]
    · intro lf _
      rw [hgain 1 lf]
      show balance Real.sqrt selection 1 _ = 0
      unfold balance
      rw [hs]
      rw [if_pos (by norm_num)]
  · intro hs ch f
    rw [hsel_eq, mix_core_two_zero_start a b [] _ 0 1 hsf0 hsf1 ?_ ?_]
    · simp
    · intro lf _
      rw [hgain 0 lf]
      show balance Real.sqrt selection 0 _ = 0
      unfold balance
      rw [hs]
      rw [if_pos (by norm_num)]
    · intro lf _
      rw [hgain 1 lf]
      show balance Real.sqrt selection 1 _ = 1
      unfold balance
      rw [hs]
      rw [if_neg (by norm_num)]
      norm_num [Real.sqrt_one]
  · intro hs ch f
    rw [hsel_eq, mix_core_two_zero_start a b [] _ (Real.sqrt (1/2))
      (Real.sqrt (1/2)) hsf0 hsf1 ?_ ?_]
    · ring
    · intro lf _
      rw [hgain 0 lf]
      show balance Real.sqrt selection 0 _ = Real.sqrt (1/2)
      unfold balance
      rw [hs]
      rw [if_neg (by
        rw [Nat.cast_zero, sub_zero, abs_of_pos (by norm_num : (0:ℝ) < 1/2)]
        norm_num)]
      rw [Nat.cast_zero, sub_zero, abs_of_pos (by norm_num : (0:ℝ) < 1/2)]
      norm_num
    · intro lf _
      rw [hgain 1 lf]
      show balance Real.sqrt selection 1 _ = Real.sqrt (1/2)
      unfold balance
      rw [hs]
      rw [if_neg (by rw [abs_of_nonpos (by norm_num)]; norm_num)]
      rw [abs_of_nonpos (by norm_num)]
      norm_num

/-- Witness for C6: with a selection function constantly 0 a concrete
two-input select returns the first input's sample unchanged. -/
theorem select_crossfade_witness :
    ((⟨1, 1, 1, fun _ _ => 7⟩ : Audio ℝ).sample_rate =
      (⟨1, 1, 1, fun _ _ => 2⟩ : Audio ℝ).sample_rate) ∧
    (select (fun a _ => a) Real.sqrt
      [(⟨1, 1, 1, fun _ _ => 2⟩ : Audio ℝ), ⟨1, 1, 1, fun _ _ => 7⟩]
      (fun _ => 0) []).sample 0 0 = 2 := by
  refine ⟨rfl, ?_⟩
  have h := (select_crossfade (fun a _ => a)
    (⟨1, 1, 1, fun _ _ => 2⟩ : Audio ℝ) (⟨1, 1, 1, fun _ _ => 7⟩ : Audio ℝ)
    (fun _ => 0) rfl).2.2.1 (fun t => rfl) 0 0
  rw [h, if_pos ⟨by decide, by decide⟩]

/-- Claim C7: for every pair of non-null buffers, `convolve` returns a
buffer with the signal's channel count and sample rate, and frame count
equal to signal frames plus (rate-corrected) impulse-response frames;
when the two rates differ the impulse response — never the signal — is
resampled to the signal's rate. -/
theorem convolve_output_format (resample : Audio α → ℕ → Audio α)
    (signal ir : Audio α) (normalize : Bool)
    (hs : is_null signal = false) (hi : is_null ir = false) :
    (convolve resample signal ir normalize).num_channels =
      signal.num_channels ∧
    (convolve resample signal ir normalize).sample_rate =
      signal.sample_rate ∧
    (signal.sample_rate = ir.sample_rate →
      (convolve resample signal ir normalize).num_frames =
        signal.num_frames + ir.num_frames) ∧
    (signal.sample_rate ≠ ir.sample_rate →
      (convolve resample signal ir normalize).num_frames =
        signal.num_frames + (resample ir signal.sample_rate).num_frames) := by
  refine ⟨?_, ?_, ?_, ?_⟩
  · cases normalize <;>
      by_cases hr : signal.sample_rate = ir.sample_rate <;>
      simp [convolve, hs, hi, hr, modify_volume_in_place]
  · cases normalize <;>
      by_cases hr : signal.sample_rate = ir.sample_rate <;>
      simp [convolve, hs, hi, hr, modify_volume_in_place]
  · intro hr
    cases normalize <;> simp [convolve, hs, hi, hr, modify_volume_in_place]
  · intro hr
    cases normalize <;> simp [convolve, hs, hi, hr, modify_volume_in_place]

/-- Witness for C7: on concrete non-null equal-rate buffers the output
frame count is the sum of the two inputs' frame counts. -/
theorem convolve_output_format_witness :
    (is_null (⟨1, 2, 4, fun _ f => (f : ℚ) + 3⟩ : Audio ℚ) = false) ∧
    (is_null (⟨1, 1, 4, fun _ _ => 1⟩ : Audio ℚ) = false) ∧
    (convolve (fun a _ => a) (⟨1, 2, 4, fun _ f => (f : ℚ) + 3⟩ : Audio ℚ)
      ⟨1, 1, 4, fun _ _ => 1⟩ false).num_frames = 3 := by
  refine ⟨by decide, by decide, ?_⟩
  exact (convolve_output_format (fun a _ => a) _ _ false (by decide)
    (by decide)).2.2.1 rfl

lemma circular_convolution_unit (N : ℕ) (x y : ℕ → α) (f : ℕ)
    (hf : f < N) (hy0 : y 0 = 1) (hy : ∀ m, m ≠ 0 → m < N → y m = 0) :
    circular_convolution N x y f = x f := by
  unfold circular_convolution
  rw [Finset.sum_eq_single f]
  · have h1 : (f + (N - f)) % N = 0 := by
      have h2 : f + (N - f) = N := by omega
      rw [h2, Nat.mod_self]
    rw [h1, hy0, mul_one]
  · intro j hj hne
    have hjN := Finset.mem_range.mp hj
    have hm : (f + (N - j)) % N ≠ 0 := by
      intro hm0
      obtain ⟨k, hk⟩ := Nat.dvd_of_mod_eq_zero hm0
      have hk1 : k = 1 := by
        have hpos : 0 < k := by
          rcases Nat.eq_zero_or_pos k with rfl | h
          · omega
          · exact h
        by_contra hk2
        have h2 : 2 ≤ k := by omega
        have h3 : N * 2 ≤ N * k := Nat.mul_le_mul_left N h2
        omega
      subst hk1
      exact hne (by omega)
    have hmN : (f + (N - j)) % N < N := Nat.mod_lt _ (by omega)
    rw [hy _ hm hmN, mul_zero]
  · intro hfn
    exact absurd (Finset.mem_range.mpr hf) hfn

/-- Claim C8: for every non-null signal, convolving with a same-rate
impulse response consisting of a single unit sample at frame 0 (with
`normalize = false`) returns the signal zero-padded to the combined
length: the first signal-frame-count output samples equal the signal and
the remaining samples are 0. -/
theorem convolve_unit_impulse_identity (resample : Audio α → ℕ → Audio α)
    (signal ir : Audio α) (hs : is_null signal = false)
    (hsr : ir.sample_rate = signal.sample_rate)
    (hirf : ir.num_frames = 1) (hirc : 0 < ir.num_channels)
    (hunit : ∀ ch, ir.sample ch 0 = 1) :
    (convolve resample signal ir false).num_frames =
      signal.num_frames + 1 ∧
    (∀ ch f, ch < signal.num_channels → f < signal.num_frames →
      (convolve resample signal ir false).sample ch f =
        signal.sample ch f) ∧
    (∀ ch f, ch < signal.num_channels → signal.num_frames ≤ f →
      f < signal.num_frames + 1 →
      (convolve resample signal ir false).sample ch f = 0) := by
  have hi : is_null ir = false := by
    simp [is_null, hirf]
    omega
  have hsr2 : signal.sample_rate = ir.sample_rate := hsr.symm
  have hconv : convolve resample signal ir false =
      { num_channels := signal.num_channels
        num_frames := signal.num_frames + ir.num_frames
        sample_rate := signal.sample_rate
        sample := fun ch f =>
          if ch < signal.num_channels ∧
              f < signal.num_frames + ir.num_frames then
            circular_convolution
              (2 * power_of_2_container
                (max signal.num_frames ir.num_frames))
              (fun j => if j < signal.num_frames then signal.sample ch j
                else 0)
              (fun j => if j < ir.num_frames then
                ir.sample (ch % ir.num_channels) j else 0) f
          else 0 } := by
    unfold convolve
    rw [hs, hi]
    simp only [Bool.false_eq_true, if_false, if_pos hsr2]
  have hsF : 0 < signal.num_frames := by
    simp [is_null] at hs
    omega
  have hN : signal.num_frames + 1 ≤
      2 * power_of_2_container (max signal.num_frames ir.num_frames) := by
    unfold power_of_2_container
    have h1 : max signal.num_frames ir.num_frames ≤
        2 ^ Nat.clog 2 (max signal.num_frames ir.num_frames) :=
      Nat.le_pow_clog (by norm_num) _
    have h2 : signal.num_frames ≤ max signal.num_frames ir.num_frames :=
      le_max_left _ _
    omega
  have hcc : ∀ ch f, f < signal.num_frames + 1 → ch < signal.num_channels →
      (convolve resample signal ir false).sample ch f =
        (if f < signal.num_frames then signal.sample ch f else 0) := by
    intro ch f hfb hch
    rw [hconv]
    show (if ch < signal.num_channels ∧
        f < signal.num_frames + ir.num_frames then _ else _) = _
    rw [if_pos ⟨hch, by omega⟩]
    exact circular_convolution_unit _ _ _ f (by omega)
      (by rw [if_pos (by omega), hunit])
      (fun m hm hmN => by rw [if_neg (by omega)])
  refine ⟨?_, ?_, ?_⟩
  · rw [hconv, hirf]
  · intro ch f hch hf
    rw [hcc ch f (by omega) hch, if_pos hf]
  · intro ch f hch hlo hhi
    rw [hcc ch f hhi hch, if_neg (by omega)]

/-- Witness for C8: convolving a concrete two-frame signal with the unit
impulse reproduces the signal at frame 1 and is 0 at the padded frame. -/
theorem convolve_unit_impulse_identity_witness :
    (is_null (⟨1, 2, 4, fun _ f => (f : ℚ) + 3⟩ : Audio ℚ) = false) ∧
    (convolve (fun a _ => a) (⟨1, 2, 4, fun _ f => (f : ℚ) + 3⟩ : Audio ℚ)
      ⟨1, 1, 4, fun _ _ => 1⟩ false).sample 0 1 = 4 ∧
    (convolve (fun a _ => a) (⟨1, 2, 4, fun _ f => (f : ℚ) + 3⟩ : Audio ℚ)
      ⟨1, 1, 4, fun _ _ => 1⟩ false).sample 0 2 = 0 := by
  have h := convolve_unit_impulse_identity (fun a _ => a)
    (⟨1, 2, 4, fun _ f => (f : ℚ) + 3⟩ : Audio ℚ)
    (⟨1, 1, 4, fun _ _ => 1⟩ : Audio ℚ) (by decide) rfl rfl (by decide)
    (fun ch => rfl)
  refine ⟨by decide, ?_, h.2.2 0 2 (by decide) (by decide) (by decide)⟩
  have h2 := h.2.1 0 1 (by decide) (by decide)
  rw [h2]
  norm_num

/-- Claim C2: for every single input buffer, `mix([a])` with default
start time 0 and default gain 1 returns a buffer equal to `a`
sample-for-sample: same channel count, frame count and sample rate, and
every in-range sample value equal to `a`'s sample at the same channel and
frame. -/
theorem mix_single_identity (resample : Audio α → ℕ → Audio α) (a : Audio α) :
    (mix resample [a] [] []).num_channels = a.num_channels ∧
    (mix resample [a] [] []).num_frames = a.num_frames ∧
    (mix resample [a] [] []).sample_rate = a.sample_rate ∧
    ∀ ch f, ch < a.num_channels → f < a.num_frames →
      (mix resample [a] [] []).sample ch f = a.sample ch f := by
  have hcore : mix resample [a] [] [] = mix_core [a]
      (mix_start_frames [a] []) (fun i _ => ([] : List α).getD i 1) :=
    mix_eq_core resample ([] : List ℚ) ([] : List α)
      (by simp) (by intro x hx; simp [getA] at hx ⊢; simp [hx])
  rw [hcore]
  have hsf : mix_start_frames [a] ([] : List ℚ) = fun _ => 0 := by
    funext i
    simp [mix_start_frames, time_to_frame, getA]
  have hnf : mix_num_frames [a] (mix_start_frames [a] ([] : List ℚ)) =
      a.num_frames := by
    rw [hsf]
    simp [mix_num_frames, getA, List.range_succ]
  refine ⟨?_, ?_, ?_, ?_⟩
  · simp [mix_core, get_max_num_channels]
  · exact hnf
  · simp [mix_core, getA]
  · intro ch f hch hf
    show (∑ i in Finset.range 1, mix_contribution [a]
        (mix_start_frames [a] []) (fun i _ => ([] : List α).getD i 1)
        (mix_num_frames [a] (mix_start_frames [a] [])) i ch f) = a.sample ch f
    rw [Finset.sum_range_one, hnf, hsf]
    unfold mix_contribution
    rw [if_pos]
    · simp [getA]
    · refine ⟨by simpa [getA] using hch, by simp, ?_, hf⟩
      simpa [getA] using (by exact_mod_cast hf : ((f : ℤ) < (a.num_frames : ℤ)))

/-- Witness for C2: a concrete one-channel two-frame buffer passes
through `mix` unchanged at channel 0, frame 1. -/
theorem mix_single_identity_witness :
    (0 < (1 : ℕ) ∧ 1 < (2 : ℕ)) ∧
    (mix (fun a _ => a) [(⟨1, 2, 4, fun ch f => (ch : ℚ) + f⟩ : Audio ℚ)]
      [] []).sample 0 1 =
      (⟨1, 2, 4, fun ch f => (ch : ℚ) + f⟩ : Audio ℚ).sample 0 1 :=
  ⟨⟨by decide, by decide⟩,
    (mix_single_identity (fun a _ => a) _).2.2.2 0 1 (by decide) (by decide)⟩

/-- Claim C4: `mix`, `mix_variable_gain` and `join` on an empty input
list return the null buffer, and `convolve` on a null signal or a null
impulse response returns the null buffer; all these degenerate cases are
total (no error is raised). -/
theorem degenerate_inputs_return_null (resample : Audio α → ℕ → Audio α)
    (st : List ℚ) (amps : List α) (ampfs : List (ℚ → α)) (offset : ℚ)
    (s ir : Audio α) (normalize : Bool) :
    mix resample [] st amps = create_null ∧
    mix_variable_gain resample [] st ampfs = create_null ∧
    join resample [] offset = create_null ∧
    (is_null s = true → convolve resample s ir normalize = create_null) ∧
    (is_null ir = true → convolve resample s ir normalize = create_null) := by
  refine ⟨by simp [mix], by simp [mix_variable_gain], by simp [join], ?_, ?_⟩
  · intro h
    simp [convolve, h]
  · intro h
    by_cases hs : is_null s <;> simp [convolve, hs, h]

/-- Witness for C4: concrete degenerate calls return the null buffer. -/
theorem degenerate_inputs_return_null_witness :
    (is_null (create_null : Audio ℚ) = true) ∧
    mix (fun a _ => a) ([] : List (Audio ℚ)) [] [] = create_null ∧
    convolve (fun a _ => a) (create_null : Audio ℚ)
      ⟨1, 1, 4, fun _ _ => 1⟩ false = create_null := by
  have h := degenerate_inputs_return_null (fun a _ => a) ([] : List ℚ)
    ([] : List ℚ) [] 0 (create_null : Audio ℚ) ⟨1, 1, 4, fun _ _ => 1⟩ false
  exact ⟨by decide, h.1, h.2.2.2.1 (by decide)⟩

end Flan
